import Mathlib

/-!
# Verification of the `launch-unity` process-lifecycle orchestrator

A shallow embedding of the core of `src/launch.ts` and `src/unityHub.ts`
(path canonicalization, project discovery by breadth-first search, running
Unity-instance detection from process command lines, stale-lockfile handling,
the top-level launch decision procedure, and the Unity Hub registry patching),
together with theorems checking the natural-language specification against it.

Filesystem and OS facilities (`node:path.resolve`, `ps`, PowerShell,
`readdirSync`, `spawn`, `rm`) are external to the repository; they are
modelled from their documented semantics, restricted to ASCII strings and
rooted (separator-leading) absolute paths, and the effectful orchestration
code is embedded as pure functions over an explicit environment that records
the observable effects (launch invocations, deletions, focus calls).
-/

namespace LaunchUnity

/-! ## Character helpers (ASCII model of the JS string primitives) -/

/-- Path-separator test: the code folds both platform separator styles
(`/` and `\`), cf. `removeTrailingSeparators` and `toComparablePath` in
`launch.ts`. -/
def isSep (c : Char) : Bool := c == '/' || c == '\\'

/-- ASCII model of JavaScript `toLocaleLowerCase` as used by
`toComparablePath` and by the deny-list comparison: uppercase ASCII letters
are mapped to lowercase, everything else is untouched. -/
def lowerChar (c : Char) : Char :=
  if 65 ≤ c.toNat ∧ c.toNat ≤ 90 then Char.ofNat (c.toNat + 32) else c

/-- ASCII model of the JS `\s` character class / `String.prototype.trim`
whitespace. -/
def isWs (c : Char) : Bool :=
  c == ' ' || c == '\t' || c == '\n' || c == '\r' || c == '\x0b' || c == '\x0c'

/-- Lowercase a string character-wise (ASCII model of `toLocaleLowerCase`
applied to whole strings, e.g. deny-list keys and auxiliary-marker search). -/
def lowerString (s : String) : String := ⟨s.data.map lowerChar⟩

/-! ## PathCanonicalizer: model of `resolve`, `normalizePath`,
`toComparablePath`, `pathsEqual` (launch.ts lines 408-428)

`node:path.resolve` is a platform library routine; it is modelled from its
documented semantics for rooted paths: a path starting with a separator is
normalized in place, a relative path is first appended to the current
working directory.  Normalization splits on both separator styles, drops
empty and `.` components, applies `..`, and rejoins with `/`.  Drive-letter
relative forms are outside the model. -/

/-- Split a character list into components at path separators. -/
def splitComps : List Char → List (List Char)
  | [] => [[]]
  | c :: cs =>
    if isSep c then [] :: splitComps cs
    else
      match splitComps cs with
      | [] => [[c]]
      | h :: t => (c :: h) :: t

/-- Join components with `/` (no leading separator). -/
def joinComps : List (List Char) → List Char
  | [] => []
  | [c] => c
  | c :: cs => c ++ '/' :: joinComps cs

/-- A component survives normalization when it is neither empty nor `.`. -/
def goodComp (c : List Char) : Bool := !c.isEmpty && c ≠ ['.']

/-- Apply `..` components to the accumulated component stack, as
`path.resolve` does (clamped at the root). -/
def resolveDots (acc : List (List Char)) : List (List Char) → List (List Char)
  | [] => acc
  | c :: cs =>
    if c = ['.', '.'] then resolveDots acc.dropLast cs
    else resolveDots (acc ++ [c]) cs

/-- The normalized component list of a rooted path. -/
def absComps (p : List Char) : List (List Char) :=
  resolveDots [] ((splitComps p).filter goodComp)

/-- Normalize a rooted path: `/`-prefixed join of its normalized
components (the empty component list yields the root `/`). -/
def resolveAbs (p : List Char) : List Char :=
  '/' :: joinComps (absComps p)

/-- Whether a path spelling is rooted (starts with a separator). -/
def isAbsolutePath (p : List Char) : Bool :=
  match p with
  | [] => false
  | c :: _ => isSep c

/-- Model of `node:path.resolve` (single argument) with an explicit current
working directory: a rooted path is normalized in place, a relative one is
resolved against `cwd`. -/
def resolveL (cwd p : List Char) : List Char :=
  if isAbsolutePath p then resolveAbs p else resolveAbs (cwd ++ '/' :: p)

/-- Helper for `removeTrailingSeparators`: drop leading separators of the
reversed path while more than one character remains. -/
def dropTrailingSepsRev : List Char → List Char
  | [] => []
  | c :: rest =>
    if isSep c && !rest.isEmpty then dropTrailingSepsRev rest else c :: rest

/-- `removeTrailingSeparators` from launch.ts: strip trailing `/` and `\`
while the string is longer than one character. -/
def removeTrailingSeparatorsL (p : List Char) : List Char :=
  (dropTrailingSepsRev p.reverse).reverse

/-- `normalizePath` from launch.ts: `resolve` then strip trailing
separators. -/
def normalizePathL (cwd p : List Char) : List Char :=
  removeTrailingSeparatorsL (resolveL cwd p)

/-- The character fold of `toComparablePath`: replace `\` by `/`, then
lowercase. -/
def comparableChar (c : Char) : Char :=
  lowerChar (if c == '\\' then '/' else c)

/-- `toComparablePath` from launch.ts: fold separators to `/` and
case-fold. -/
def toComparablePathL (p : List Char) : List Char := p.map comparableChar

/-- The canonicalization pipeline used for every path comparison:
`toComparablePath (normalizePath p)`. -/
def canonicalizeL (cwd p : List Char) : List Char :=
  toComparablePathL (normalizePathL cwd p)

/-- `pathsEqual` from launch.ts: equality of canonicalized spellings. -/
def pathsEqualL (cwd l r : List Char) : Bool :=
  canonicalizeL cwd l == canonicalizeL cwd r

/-- String-level `removeTrailingSeparators`. -/
def removeTrailingSeparators (p : String) : String :=
  ⟨removeTrailingSeparatorsL p.data⟩

/-- String-level `normalizePath` (with explicit working directory). -/
def normalizePath (cwd p : String) : String := ⟨normalizePathL cwd.data p.data⟩

/-- String-level `toComparablePath`. -/
def toComparablePath (p : String) : String := ⟨toComparablePathL p.data⟩

/-- String-level canonicalization: `toComparablePath (normalizePath p)`. -/
def canonicalize (cwd p : String) : String := ⟨canonicalizeL cwd.data p.data⟩

/-- String-level `pathsEqual`. -/
def pathsEqual (cwd l r : String) : Bool := pathsEqualL cwd.data l.data r.data

/-- Two path spellings are equivalent spellings of the same directory when
both are rooted and they agree component-wise after separator folding,
dropping of empty components, and ASCII case folding.  This captures the
spec's "differing case, trailing separator, separator style". -/
def sameDirSpelling (p q : List Char) : Prop :=
  isAbsolutePath p = true ∧ isAbsolutePath q = true ∧
    ((splitComps p).filter (fun c => !c.isEmpty)).map (List.map lowerChar)
      = ((splitComps q).filter (fun c => !c.isEmpty)).map (List.map lowerChar)

/-! ## ProcessRegistry: model of command-line parsing and process listing
(launch.ts lines 430-586)

`ps`/PowerShell are external facilities: their output is passed in as an
`Except`, `.error` standing for a rejected `execFileAsync` promise (tool not
found, permission denied, non-zero exit).  The regexes of the source are
implemented as first-match scanning functions with the engine's
leftmost-match, ordered-alternation semantics. -/

/-- `UnityProcessInfo` from launch.ts (`pid` as `Nat`; `parseInt` of a digit
string is modelled exactly). -/
structure UnityProcessInfo where
  pid : Nat
  projectPath : String
deriving DecidableEq, Repr

/-- Case-insensitive prefix match; the needle is supplied lowercase. -/
def stripPrefixCI : List Char → List Char → Option (List Char)
  | [], rest => some rest
  | _ :: _, [] => none
  | p :: ps, c :: cs => if lowerChar c == p then stripPrefixCI ps cs else none

/-- One capture alternative of `PROJECT_PATH_PATTERN` at this position:
`"[^"]+"`, `'[^']+'` or `[^\s"']+`, tried in the regex's order; returns the
raw capture, quotes included. -/
def matchCapture (l : List Char) : Option (List Char) :=
  match l with
  | '"' :: cs =>
    let inner := cs.takeWhile (fun c => c ≠ '"')
    if inner.isEmpty then none
    else
      match cs.drop inner.length with
      | '"' :: _ => some ('"' :: inner ++ ['"'])
      | _ => none
  | '\'' :: cs =>
    let inner := cs.takeWhile (fun c => c ≠ '\'')
    if inner.isEmpty then none
    else
      match cs.drop inner.length with
      | '\'' :: _ => some ('\'' :: inner ++ ['\''])
      | _ => none
  | _ =>
    let bare := l.takeWhile (fun c => !(isWs c) && c ≠ '"' && c ≠ '\'')
    if bare.isEmpty then none else some bare

/-- Match `PROJECT_PATH_PATTERN` starting exactly at this position:
`-` then case-insensitive `projectpath`, then `=` or whitespace, then a
capture. -/
def tryMatchAt (l : List Char) : Option (List Char) :=
  match l with
  | '-' :: rest =>
    match stripPrefixCI "projectpath".data rest with
    | none => none
    | some r2 =>
      match r2 with
      | '=' :: r3 => matchCapture r3
      | _ =>
        let ws := r2.takeWhile isWs
        if ws.isEmpty then none else matchCapture (r2.drop ws.length)
  | _ => none

/-- Leftmost-match scan of a command line for `PROJECT_PATH_PATTERN`. -/
def scanProjectPath : List Char → Option (List Char)
  | [] => none
  | c :: cs =>
    match tryMatchAt (c :: cs) with
    | some cap => some cap
    | none => scanProjectPath cs

/-- JS `String.prototype.trim` (ASCII whitespace model). -/
def trimL (l : List Char) : List Char :=
  ((l.dropWhile isWs).reverse.dropWhile isWs).reverse

/-- Does the list start and end with the quote character (JS
`startsWith`/`endsWith` pair used by `extractProjectPath`)? -/
def startsEndsWith (q : Char) (t : List Char) : Bool :=
  match t with
  | [] => false
  | c :: _ => c == q && (t.getLast? == some q)

/-- `extractProjectPath` from launch.ts: first match of
`PROJECT_PATH_PATTERN`, trimmed, surrounding quotes stripped. -/
def extractProjectPath (command : String) : Option String :=
  match scanProjectPath command.data with
  | none => none
  | some raw =>
    if raw.isEmpty then none
    else
      let t := trimL raw
      if startsEndsWith '"' t then some ⟨(t.drop 1).dropLast⟩
      else if startsEndsWith '\'' t then some ⟨(t.drop 1).dropLast⟩
      else some ⟨t⟩

/-- Substring containment on character lists. -/
def containsSub : List Char → List Char → Bool
  | [], needle => needle.isEmpty
  | l@(_ :: t), needle => needle.isPrefixOf l || containsSub t needle

/-- `isUnityAuxiliaryProcess` from launch.ts: the lowercased command line
contains `-batchmode` or `assetimportworker`. -/
def isUnityAuxiliaryProcess (command : String) : Bool :=
  let normalizedCommand := command.data.map lowerChar
  containsSub normalizedCommand "-batchmode".data ||
    containsSub normalizedCommand "assetimportworker".data

/-- Test of `UNITY_EXECUTABLE_PATTERN_MAC`
(`/Unity\.app\/Contents\/MacOS\/Unity/i`): case-insensitive substring. -/
def testUnityExecutablePatternMac (command : String) : Bool :=
  containsSub (command.data.map lowerChar) "unity.app/contents/macos/unity".data

/-- Test of `UNITY_EXECUTABLE_PATTERN_WINDOWS` (`/Unity\.exe/i`). -/
def testUnityExecutablePatternWindows (command : String) : Bool :=
  containsSub (command.data.map lowerChar) "unity.exe".data

/-- Split a character list at every occurrence of `sep`. -/
def splitOnChar (sep : Char) : List Char → List (List Char)
  | [] => [[]]
  | c :: cs =>
    if c == sep then [] :: splitOnChar sep cs
    else
      match splitOnChar sep cs with
      | [] => [[c]]
      | h :: t => (c :: h) :: t

/-- Decimal value of a digit string (`Number.parseInt` on an all-digit
string). -/
def natOfDigits (ds : List Char) : Nat :=
  ds.foldl (fun acc d => acc * 10 + (d.toNat - 48)) 0

/-- Model of matching `/^(\d+)\s+(.*)$/` against a trimmed `ps` line and
parsing the pid: leading digit run, at least one whitespace (greedy), rest
is the command. -/
def parsePsLine (l : List Char) : Option (Nat × List Char) :=
  let ds := l.takeWhile (fun c => c.isDigit)
  if ds.isEmpty then none
  else
    let r := l.drop ds.length
    let ws := r.takeWhile isWs
    if ws.isEmpty then none
    else some (natOfDigits ds, r.drop ws.length)

/-- `stdout.split("\n").map(trim).filter(nonempty)` from both platform
listers. -/
def nonEmptyTrimmedLines (out : String) : List (List Char) :=
  ((splitOnChar '\n' out.data).map trimL).filter (fun l => !l.isEmpty)

/-- The per-line body of `listUnityProcessesMac`'s loop. -/
def processMacLine (cwd : String) (line : List Char) : Option UnityProcessInfo :=
  match parsePsLine line with
  | none => none
  | some (pidValue, command) =>
    if !testUnityExecutablePatternMac ⟨command⟩ then none
    else if isUnityAuxiliaryProcess ⟨command⟩ then none
    else
      match extractProjectPath ⟨command⟩ with
      | none => none
      | some projectArgument => some ⟨pidValue, normalizePath cwd projectArgument⟩

/-- `listUnityProcessesMac`: an `execFileAsync` failure degrades to `[]`
(after a logged warning, not modelled); otherwise the stdout lines are
parsed and filtered. -/
def listUnityProcessesMac (cwd : String) (queryResult : Except String String) :
    List UnityProcessInfo :=
  match queryResult with
  | .error _ => []
  | .ok stdout => (nonEmptyTrimmedLines stdout).filterMap (processMacLine cwd)

/-- The per-line body of `listUnityProcessesWindows`'s loop
(`pid|commandLine` records from the PowerShell query). -/
def processWindowsLine (cwd : String) (line : List Char) :
    Option UnityProcessInfo :=
  let pidText := line.takeWhile (fun c => c ≠ '|')
  if pidText.length == line.length then none
  else
    let command := trimL (line.drop (pidText.length + 1))
    let ds := (trimL pidText).takeWhile (fun c => c.isDigit)
    if ds.isEmpty then none
    else if !testUnityExecutablePatternWindows ⟨command⟩ then none
    else if isUnityAuxiliaryProcess ⟨command⟩ then none
    else
      match extractProjectPath ⟨command⟩ with
      | none => none
      | some projectArgument =>
        some ⟨natOfDigits ds, normalizePath cwd projectArgument⟩

/-- `listUnityProcessesWindows`: failure degrades to `[]` exactly as on
mac. -/
def listUnityProcessesWindows (cwd : String) (queryResult : Except String String) :
    List UnityProcessInfo :=
  match queryResult with
  | .error _ => []
  | .ok stdout => (nonEmptyTrimmedLines stdout).filterMap (processWindowsLine cwd)

/-- `findRunningUnityProcess` from launch.ts over an already-obtained
process list: first list element whose bound path canonically equals the
normalized target. -/
def findRunningUnityProcess (cwd : String) (processes : List UnityProcessInfo)
    (projectPath : String) : Option UnityProcessInfo :=
  let normalizedTarget := normalizePath cwd projectPath
  processes.find? (fun candidate => pathsEqual cwd candidate.projectPath normalizedTarget)

/-! ## Orchestrator: model of `main`'s launch decision sequence
(launch.ts lines 904-933) and its collaborators `handleStaleLockfile`
(640-666) and `killRunningUnity` (699-719)

The environment fixes what the OS would answer during the single pass:
the process list, whether `Temp/UnityLockfile` exists, whether some live
process holds the lock marker open (the spec's Held state — the code never
reads this bit, which is the point of several claims), and whether a killed
process exits within the bounded wait.  Effects record every observable
invocation.  Argument parsing, project-path resolution, version reading and
the Unity-Hub-only mode happen before this fragment and are not part of the
claims' scenarios. -/

structure OrchestratorEnv where
  processes : List UnityProcessInfo
  lockfileExists : Bool
  lockHolderAlive : Bool
  killWaitSucceeds : Bool
deriving DecidableEq, Repr

structure Effects where
  launchInvocations : Nat
  tempDirDeletions : Nat
  lockfileDeletions : Nat
  focusedPids : List Nat
  killedPids : List Nat
  registryUpdates : Nat
deriving DecidableEq, Repr

def emptyEffects : Effects := ⟨0, 0, 0, [], [], 0⟩

def addLaunch (e : Effects) : Effects :=
  ⟨e.launchInvocations + 1, e.tempDirDeletions, e.lockfileDeletions,
    e.focusedPids, e.killedPids, e.registryUpdates⟩

def addTempAndLockfileDeletion (e : Effects) : Effects :=
  ⟨e.launchInvocations, e.tempDirDeletions + 1, e.lockfileDeletions + 1,
    e.focusedPids, e.killedPids, e.registryUpdates⟩

def addFocused (pid : Nat) (e : Effects) : Effects :=
  ⟨e.launchInvocations, e.tempDirDeletions, e.lockfileDeletions,
    e.focusedPids ++ [pid], e.killedPids, e.registryUpdates⟩

def addKilled (pid : Nat) (e : Effects) : Effects :=
  ⟨e.launchInvocations, e.tempDirDeletions, e.lockfileDeletions,
    e.focusedPids, e.killedPids ++ [pid], e.registryUpdates⟩

def addRegistryUpdate (e : Effects) : Effects :=
  ⟨e.launchInvocations, e.tempDirDeletions, e.lockfileDeletions,
    e.focusedPids, e.killedPids, e.registryUpdates + 1⟩

/-- The observable outcome of one orchestration pass (`process.exit(0)`
after focusing, `process.exit(1)` on kill timeout, or a launch). -/
inductive MainResult where
  | focused (pid : Nat)
  | launched
  | killTimeoutError
deriving DecidableEq, Repr

/-- `handleStaleLockfile`: when `Temp/UnityLockfile` exists, delete the
Temp directory and the lockfile (both `rm` calls run regardless of who, if
anyone, holds the marker open) and continue; otherwise do nothing. -/
def handleStaleLockfile (env : OrchestratorEnv) (eff : Effects) : Effects :=
  if env.lockfileExists then addTempAndLockfileDeletion eff else eff

inductive KillOutcome where
  | noneFound
  | killed
  | timedOut
deriving DecidableEq, Repr

/-- `killRunningUnity`: find the running process for the project; missing is
a no-op success; otherwise SIGKILL and wait (bounded), timing out is fatal. -/
def killRunningUnity (cwd : String) (env : OrchestratorEnv)
    (projectPath : String) (eff : Effects) : KillOutcome × Effects :=
  match findRunningUnityProcess cwd env.processes projectPath with
  | none => (KillOutcome.noneFound, eff)
  | some processInfo =>
    let eff2 := addKilled processInfo.pid eff
    if env.killWaitSucceeds then (KillOutcome.killed, eff2)
    else (KillOutcome.timedOut, eff2)

/-- The launch decision sequence of `main` after the project path and
version are resolved, for a Launch (or `-r` Restart) request: restart kills
first; a non-restart pass focuses a matching running instance and stops;
otherwise the stale-lockfile step runs, `launch` is invoked, and the
registry timestamp is updated best-effort. -/
def mainAfterResolve (cwd : String) (env : OrchestratorEnv) (restart : Bool)
    (resolvedProjectPath : String) : MainResult × Effects :=
  if restart then
    match killRunningUnity cwd env resolvedProjectPath emptyEffects with
    | (KillOutcome.timedOut, eff) => (MainResult.killTimeoutError, eff)
    | (_, eff) =>
      (MainResult.launched,
        addRegistryUpdate (addLaunch (handleStaleLockfile env eff)))
  else
    match findRunningUnityProcess cwd env.processes resolvedProjectPath with
    | some runningProcess =>
      (MainResult.focused runningProcess.pid,
        addFocused runningProcess.pid emptyEffects)
    | none =>
      (MainResult.launched,
        addRegistryUpdate (addLaunch (handleStaleLockfile env emptyEffects)))

/-! ## ProjectLocator: model of `findUnityProjectBfs`
(launch.ts lines 733-820)

The filesystem below the search root is a finite tree of directories;
`isProject` stands for `existsSync(dir/ProjectSettings/ProjectVersion.txt)`.
Symbolic links are out of the modelled filesystem (`realpathSync` is the
identity, `lstat` never reports a link), `localeCompare` is modelled as
code-point order, and an entry's `path` is its component list from the root
(the root itself is `[]`), so the visited key of the source —
`toComparablePath(normalizePath(dir))` — becomes the lowercased component
list. -/

inductive DirTree where
  | node (name : String) (isProject : Bool) (children : List DirTree)
deriving Repr

def DirTree.name : DirTree → String
  | .node n _ _ => n

def DirTree.isProject : DirTree → Bool
  | .node _ p _ => p

def DirTree.children : DirTree → List DirTree
  | .node _ _ cs => cs

mutual

def DirTree.size : DirTree → Nat
  | .node _ _ cs => 1 + sizeChildren cs

def sizeChildren : List DirTree → Nat
  | [] => 0
  | t :: ts => DirTree.size t + sizeChildren ts

end

/-- `EXCLUDED_DIR_NAMES` from launch.ts. -/
def EXCLUDED_DIR_NAMES : List String :=
  ["library", "temp", "logs", "obj", ".git", "node_modules", ".idea",
    ".vscode", ".vs"]

/-- Lexicographic code-point comparison of character lists. -/
def charListLe : List Char → List Char → Bool
  | [], _ => true
  | _ :: _, [] => false
  | a :: as1, b :: bs1 => if a == b then charListLe as1 bs1 else a.toNat < b.toNat

/-- Tertiary (case-level) comparison of two strings with equal case
folds: at the first case-only difference the lowercase variant sorts
first, as in the default ICU collation. -/
def tertiaryLe : List Char → List Char → Bool
  | [], _ => true
  | _ :: _, [] => true
  | a :: as1, b :: bs1 => if a == b then tertiaryLe as1 bs1 else a == lowerChar a

/-- The sibling sort order: `localeCompare` under Node's default (root
locale, ICU) collation, modelled for ASCII names: primary comparison of
the case-folded code points, and on a case-only tie the lowercase variant
first (`"proj"` sorts before `"PROJ"`). -/
def nameLe (a b : String) : Bool :=
  let fa := a.data.map lowerChar
  let fb := b.data.map lowerChar
  if fa == fb then tertiaryLe a.data b.data else charListLe fa fb

def insertByName (a : DirTree) : List DirTree → List DirTree
  | [] => [a]
  | b :: bs => if nameLe a.name b.name then a :: b :: bs else b :: insertByName a bs

/-- Sort sibling directories by name (insertion sort; `localeCompare`
modelled as code-point order). -/
def sortByName : List DirTree → List DirTree
  | [] => []
  | a :: rest => insertByName a (sortByName rest)

/-- `listSubdirectoriesSorted`: drop deny-listed names (lowercased
comparison), sort the remainder by name. -/
def listSubdirectoriesSorted (cs : List DirTree) : List DirTree :=
  sortByName (cs.filter (fun d => !(EXCLUDED_DIR_NAMES.contains (lowerString d.name))))

/-- A queue entry of the search: the directory, its depth, and its
component path from the search root. -/
structure BfsEntry where
  path : List String
  depth : Nat
  tree : DirTree
deriving Repr

/-- The visited-set key of a directory: its lowercased component path. -/
def entryKey (p : List String) : List String := p.map lowerString

/-- The child-enqueueing loop: already-visited canonical keys are skipped,
fresh ones are appended to the queue and marked visited. -/
def enqueueChildren (parentPath : List String) (depth : Nat) :
    List DirTree → List BfsEntry → List (List String) →
    List BfsEntry × List (List String)
  | [], queue, visited => (queue, visited)
  | child :: rest, queue, visited =>
    let key := entryKey (parentPath ++ [child.name])
    if visited.contains key then
      enqueueChildren parentPath depth rest queue visited
    else
      enqueueChildren parentPath depth rest
        (queue ++ [⟨parentPath ++ [child.name], depth + 1, child⟩])
        (visited ++ [key])

/-- `maxDepth === -1 || depth < maxDepth`. -/
def canDescend (maxDepth : Int) (depth : Nat) : Bool :=
  maxDepth == -1 || (depth : Int) < maxDepth

/-- The queue loop of `findUnityProjectBfs`, fuelled (one unit per dequeue;
in a finite tree every directory is enqueued at most once, so `root.size`
units never run out). -/
def bfsAux : Nat → List BfsEntry → List (List String) → Int → Option BfsEntry
  | 0, _, _, _ => none
  | _ + 1, [], _, _ => none
  | fuel + 1, e :: rest, visited, maxDepth =>
    if e.tree.isProject then some e
    else if canDescend maxDepth e.depth then
      let qv := enqueueChildren e.path e.depth
        (listSubdirectoriesSorted e.tree.children) rest visited
      bfsAux fuel qv.1 qv.2 maxDepth
    else bfsAux fuel rest visited maxDepth

/-- `findUnityProjectBfs`: breadth-first search from the root (depth 0),
returning the first directory that is a Unity project root. -/
def findUnityProjectBfs (root : DirTree) (maxDepth : Int) : Option BfsEntry :=
  bfsAux root.size [⟨[], 0, root⟩] [entryKey []] maxDepth

/-- The visit order of the same traversal, ignoring the early return: the
sequence of dequeued entries. -/
def bfsTraceAux : Nat → List BfsEntry → List (List String) → Int → List BfsEntry
  | 0, _, _, _ => []
  | _ + 1, [], _, _ => []
  | fuel + 1, e :: rest, visited, maxDepth =>
    if canDescend maxDepth e.depth then
      let qv := enqueueChildren e.path e.depth
        (listSubdirectoriesSorted e.tree.children) rest visited
      e :: bfsTraceAux fuel qv.1 qv.2 maxDepth
    else e :: bfsTraceAux fuel rest visited maxDepth

/-- The visit order of `findUnityProjectBfs` from the root. -/
def bfsTrace (root : DirTree) (maxDepth : Int) : List BfsEntry :=
  bfsTraceAux root.size [⟨[], 0, root⟩] [entryKey []] maxDepth

/-- The breadth-first queue invariant for depth ordering: depths are
nondecreasing along the queue and any two queue entries' depths differ by at
most one. -/
def QDepthInv (q : List BfsEntry) : Prop :=
  List.Pairwise (fun a b => a.depth ≤ b.depth) q ∧
    ∀ a ∈ q, ∀ b ∈ q, b.depth ≤ a.depth + 1

/-! ## Unity Hub registry patching: model of `unityHub.ts`
(`updateLastModifiedIfExists` lines 153-211, `ensureProjectEntryAndUpdate`
lines 82-151)

A parsed registry file's `data` record is an association list in key-object
order (JS object key order).  JSON fields that may be `null` or absent are
`Option`s (`none` covering both).  The candidate-file loop, read/parse
failures, the `realpathSync.native` canonical spelling, `basename` and
`dirname` are outside this model: the functions below take the parsed
`data` and the derived strings as arguments and return the patched `data`
(`none` standing for "no write performed"). -/

structure UnityHubProjectEntry where
  title : Option String
  path : String
  containingFolderPath : Option String
  version : Option String
  lastModified : Option Int
  isFavorite : Option Bool
deriving DecidableEq, Repr

/-- `{...original, lastModified: when.getTime()}`. -/
def setEntryLastModified (e : UnityHubProjectEntry) (now : Int) :
    UnityHubProjectEntry :=
  ⟨e.title, e.path, e.containingFolderPath, e.version, some now, e.isFavorite⟩

/-- The key-matching test of both functions:
`entryPath ? pathsEqual(entryPath, projectPath) : false` (an empty `path`
is falsy and never matches). -/
def entryMatches (cwd projectPath : String) (e : UnityHubProjectEntry) : Bool :=
  if e.path == "" then false else pathsEqual cwd e.path projectPath

/-- `updateLastModifiedIfExists` on one parsed registry file: patch only
the first entry whose `path` canonically equals the project path, and only
its `lastModified` field; `none` when no entry matches (no write at all). -/
def updateLastModifiedIfExists (cwd : String)
    (data : List (String × UnityHubProjectEntry)) (projectPath : String)
    (now : Int) : Option (List (String × UnityHubProjectEntry)) :=
  match data.find? (fun kv => entryMatches cwd projectPath kv.2) with
  | none => none
  | some kv =>
    some (data.map (fun kv2 =>
      if kv2.1 == kv.1 then (kv2.1, setEntryLastModified kv2.2 now) else kv2))

/-- `ensureProjectEntryAndUpdate` on one parsed registry file.
`canonicalProjectPath`, `projectTitle` and `containingFolderPath` are the
values the source derives via `resolvePathWithActualCase`, `basename` and
`dirname`. -/
def ensureProjectEntryAndUpdate (cwd : String)
    (data : List (String × UnityHubProjectEntry))
    (projectPath canonicalProjectPath projectTitle containingFolderPath : String)
    (version : String) (now : Int) (setFavorite : Bool) :
    List (String × UnityHubProjectEntry) :=
  let found := data.find? (fun kv => entryMatches cwd projectPath kv.2)
  let targetKey :=
    match found with
    | some kv => kv.1
    | none => canonicalProjectPath
  let existingEntry := found.map (fun kv => kv.2)
  let updatedEntry : UnityHubProjectEntry :=
    ⟨some ((existingEntry.bind (fun e => e.title)).getD projectTitle),
      (existingEntry.map (fun e => e.path)).getD canonicalProjectPath,
      some ((existingEntry.bind (fun e => e.containingFolderPath)).getD
        containingFolderPath),
      some ((existingEntry.bind (fun e => e.version)).getD version),
      some now,
      some (if setFavorite then true
        else (existingEntry.bind (fun e => e.isFavorite)).getD false)⟩
  if data.any (fun kv => kv.1 == targetKey) then
    data.map (fun kv => if kv.1 == targetKey then (targetKey, updatedEntry) else kv)
  else data ++ [(targetKey, updatedEntry)]

/-! ## Concrete scenarios used by the claim instances -/

/-- The spec's scenario command line, with the executable path written
out: a user-facing-looking Unity binary invoked with a quoted
space-containing project path and the `-batchmode` auxiliary marker. -/
def auxCommandLine : String :=
  "/Applications/Unity/Hub/Editor/2022.3.5f1/Unity.app/Contents/MacOS/Unity -projectPath \"/Users/a b/Proj\" -batchmode"

/-- The corresponding trimmed `ps` output line. -/
def auxPsLine : List Char := ("12345 " ++ auxCommandLine).data

/-- A `ps` stdout containing only that process. -/
def auxPsStdout : String := "12345 " ++ auxCommandLine ++ "\n"

/-- Two valid sibling candidates `Alpha` and `Beta` at depth 2 under the
same parent. -/
def treeSiblings : DirTree :=
  .node "root" false
    [.node "P" false [.node "Alpha" true [], .node "Beta" true []]]

/-- Two valid candidates `Alpha` and `Beta` at depth 2 under different
parents: `Beta` under parent `A`, `Alpha` under parent `B`. -/
def treeCross : DirTree :=
  .node "root" false
    [.node "A" false [.node "Beta" true []],
      .node "B" false [.node "Alpha" true []]]

/-- Sibling directories whose names collide after case folding: the
valid project `PROJ` shares a visited key with the non-project `proj`,
which sorts first under the locale-aware ordering (lowercase before
uppercase on a case-only tie). -/
def treeCaseCollision : DirTree :=
  .node "root" false [.node "proj" false [], .node "PROJ" true []]

/-- A search root that is itself named `temp` and is a valid project. -/
def treeTempRoot : DirTree := .node "temp" true []

/-- One user-facing Unity instance (pid 42) bound to `/users/foo/proj`,
no lock marker. -/
def runEnv : OrchestratorEnv := ⟨[⟨42, "/users/foo/proj"⟩], false, false, true⟩

/-- No matching running instance, lock marker present and held open by a
live process (the spec's Held state). -/
def heldEnv : OrchestratorEnv := ⟨[], true, true, true⟩

/-- No matching running instance, lock marker present with no live holder
(the spec's Stale state). -/
def staleEnv : OrchestratorEnv := ⟨[], true, false, true⟩

/-- A registry entry whose `title` and `containingFolderPath` are null. -/
def entryNullTitle : UnityHubProjectEntry :=
  ⟨none, "/a/proj", none, some "2020.1.1f1", some 5, some false⟩

/-- A registry entry keyed (in the scenarios below) by `/a/proj` but bound
to the different path `/b/other`, so it never matches `/a/proj`. -/
def entryOtherPath : UnityHubProjectEntry :=
  ⟨some "t", "/b/other", some "/b", some "2019.4.0f1", some 1, some true⟩

/-! ## Character-level lemmas -/

theorem charEq_of_toNat {a b : Char} (h : a.toNat = b.toNat) : a = b := by
  rcases a with ⟨⟨⟨a1, h1⟩⟩, va⟩
  rcases b with ⟨⟨⟨b1, h2⟩⟩, vb⟩
  simp [Char.toNat, UInt32.toNat, BitVec.toNat] at h
  subst h
  rfl

theorem lowerChar_toNat (c : Char) :
    (lowerChar c).toNat =
      if 65 ≤ c.toNat ∧ c.toNat ≤ 90 then c.toNat + 32 else c.toNat := by
  unfold lowerChar
  by_cases h : 65 ≤ c.toNat ∧ c.toNat ≤ 90
  · rw [if_pos h, if_pos h]
    have hv : (c.toNat + 32).isValidChar := Or.inl (by omega)
    unfold Char.ofNat
    rw [dif_pos hv]
    rfl
  · rw [if_neg h, if_neg h]

theorem lowerChar_idem (c : Char) : lowerChar (lowerChar c) = lowerChar c := by
  apply charEq_of_toNat
  simp only [lowerChar_toNat]
  split_ifs <;> omega

theorem char_eq_iff_toNat (a b : Char) : a = b ↔ a.toNat = b.toNat :=
  ⟨fun h => h ▸ rfl, charEq_of_toNat⟩

theorem isSep_iff (c : Char) : isSep c = true ↔ (c.toNat = 47 ∨ c.toNat = 92) := by
  unfold isSep
  rw [Bool.or_eq_true, beq_iff_eq, beq_iff_eq, char_eq_iff_toNat, char_eq_iff_toNat]
  rfl

theorem isSep_lowerChar (c : Char) : isSep (lowerChar c) = isSep c := by
  rw [Bool.eq_iff_iff, isSep_iff, isSep_iff, lowerChar_toNat]
  split_ifs with h <;> omega

theorem lowerChar_eq_iff_of_fix {d : Char}
    (hd : ¬ (65 ≤ d.toNat ∧ d.toNat ≤ 90) ∧ ¬ (97 ≤ d.toNat ∧ d.toNat ≤ 122))
    (c : Char) : lowerChar c = d ↔ c = d := by
  rw [char_eq_iff_toNat, char_eq_iff_toNat, lowerChar_toNat]
  split_ifs with h <;> omega

theorem lowerChar_eq_dot (c : Char) : lowerChar c = '.' ↔ c = '.' :=
  lowerChar_eq_iff_of_fix (by decide) c

theorem lowerChar_ne_backslash {c : Char} (h : c ≠ '\\') : lowerChar c ≠ '\\' :=
  fun hc => h ((lowerChar_eq_iff_of_fix (by decide) c).mp hc)

theorem comparableChar_idem (c : Char) :
    comparableChar (comparableChar c) = comparableChar c := by
  by_cases h : c = '\\'
  · subst h
    decide
  · have hb : (c == '\\') = false := by rw [beq_eq_false_iff_ne]; exact h
    have hb2 : (lowerChar c == '\\') = false := by
      rw [beq_eq_false_iff_ne]
      exact lowerChar_ne_backslash h
    simp [comparableChar, hb, hb2, lowerChar_idem]

theorem comparableChar_eq_lowerChar {c : Char} (h : isSep c = false) :
    comparableChar c = lowerChar c := by
  have hb : (c == '\\') = false := by
    rw [beq_eq_false_iff_ne]
    intro hc
    subst hc
    exact absurd h (by decide)
  simp [comparableChar, hb]

theorem comparableChar_slash : comparableChar '/' = '/' := by decide

/-! ## Component-splitting lemmas -/

theorem splitComps_ne_nil (p : List Char) : splitComps p ≠ [] := by
  induction p with
  | nil => simp [splitComps]
  | cons c cs ih =>
    unfold splitComps
    split
    · simp
    · rcases h : splitComps cs with _ | ⟨h1, t⟩
      · exact absurd h ih
      · simp

theorem splitComps_sepFree (p : List Char) :
    ∀ l ∈ splitComps p, ∀ ch ∈ l, isSep ch = false := by
  induction p with
  | nil =>
    intro l hl
    simp [splitComps] at hl
    subst hl
    simp
  | cons c cs ih =>
    intro l hl ch hch
    unfold splitComps at hl
    by_cases hc : isSep c = true
    · rw [if_pos hc] at hl
      rcases List.mem_cons.mp hl with h | h
      · subst h
        simp at hch
      · exact ih l h ch hch
    · rw [if_neg hc] at hl
      rcases hs : splitComps cs with _ | ⟨h1, t⟩
      · exact absurd hs (splitComps_ne_nil cs)
      · rw [hs] at hl
        rcases List.mem_cons.mp hl with h | h
        · subst h
          rcases List.mem_cons.mp hch with h2 | h2
          · subst h2
            exact Bool.not_eq_true _ ▸ hc
          · exact ih h1 (hs ▸ List.mem_cons_self h1 t) ch h2
        · exact ih l (hs ▸ List.mem_cons_of_mem h1 h) ch hch

theorem splitComps_cons (x : Char) (cs : List Char) :
    splitComps (x :: cs) =
      if isSep x then [] :: splitComps cs
      else
        match splitComps cs with
        | [] => [[x]]
        | h :: t => (x :: h) :: t := rfl

theorem splitComps_cons_notSep (x : Char) (cs : List Char) (hx : isSep x = false) :
    splitComps (x :: cs) = (x :: (splitComps cs).headI) :: (splitComps cs).tail := by
  rw [splitComps_cons, if_neg (by rw [hx]; exact Bool.false_ne_true)]
  rcases h : splitComps cs with _ | ⟨h1, t⟩
  · exact absurd h (splitComps_ne_nil cs)
  · simp

theorem splitComps_append (a r : List Char) (ha : ∀ ch ∈ a, isSep ch = false) :
    splitComps (a ++ r) = (a ++ (splitComps r).headI) :: (splitComps r).tail := by
  induction a with
  | nil =>
    rcases h : splitComps r with _ | ⟨h1, t⟩
    · exact absurd h (splitComps_ne_nil r)
    · simp [h]
  | cons x a' ih =>
    have hx : isSep x = false := ha x (by simp)
    have ha' : ∀ ch ∈ a', isSep ch = false := fun ch hch => ha ch (by simp [hch])
    show splitComps (x :: (a' ++ r)) = _
    rw [splitComps_cons_notSep x _ hx, ih ha']
    simp

theorem splitComps_sepFree_self (l : List Char) (h : ∀ ch ∈ l, isSep ch = false) :
    splitComps l = [l] := by
  induction l with
  | nil => rfl
  | cons c cs ih =>
    have hc := h c (by simp)
    rw [splitComps_cons_notSep c cs hc, ih (fun ch hch => h ch (by simp [hch]))]
    rfl

theorem splitComps_slash_cons (x : List Char) :
    splitComps ('/' :: x) = [] :: splitComps x := rfl

theorem splitComps_join (cs : List (List Char)) (hne : cs ≠ [])
    (hcs : ∀ l ∈ cs, l ≠ [] ∧ ∀ ch ∈ l, isSep ch = false) :
    splitComps (joinComps cs) = cs := by
  induction cs with
  | nil => cases hne rfl
  | cons c cs' ih =>
    rcases cs' with _ | ⟨c2, cs''⟩
    · exact splitComps_sepFree_self c (hcs c (by simp)).2
    · have hj : joinComps (c :: c2 :: cs'') = c ++ '/' :: joinComps (c2 :: cs'') := rfl
      rw [hj, splitComps_append c _ (hcs c (by simp)).2]
      rw [splitComps_slash_cons]
      rw [ih (by simp) (fun l hl => hcs l (by simp [List.mem_cons.mp hl]))]
      simp

/-! ## `resolveDots` lemmas -/

theorem resolveDots_nil (acc : List (List Char)) : resolveDots acc [] = acc := rfl

theorem resolveDots_cons (acc : List (List Char)) (x : List Char)
    (xs : List (List Char)) :
    resolveDots acc (x :: xs) =
      if x = ['.', '.'] then resolveDots acc.dropLast xs
      else resolveDots (acc ++ [x]) xs := rfl

theorem resolveDots_forall {P : List Char → Prop} :
    ∀ (l acc : List (List Char)), (∀ c ∈ acc, P c) →
      (∀ c ∈ l, c ≠ ['.', '.'] → P c) → ∀ c ∈ resolveDots acc l, P c := by
  intro l
  induction l with
  | nil =>
    intro acc hacc _ c hc
    rw [resolveDots_nil] at hc
    exact hacc c hc
  | cons x xs ih =>
    intro acc hacc hl c hc
    rw [resolveDots_cons] at hc
    by_cases hx : x = ['.', '.']
    · rw [if_pos hx] at hc
      exact ih _ (fun d hd => hacc d (List.dropLast_subset acc hd))
        (fun d hd hne => hl d (List.mem_cons_of_mem x hd) hne) c hc
    · rw [if_neg hx] at hc
      refine ih _ (fun d hd => ?_) (fun d hd hne => hl d (List.mem_cons_of_mem x hd) hne) c hc
      rcases List.mem_append.mp hd with h | h
      · exact hacc d h
      · rw [List.mem_singleton] at h
        exact h ▸ hl x (List.mem_cons_self x xs) hx

theorem resolveDots_no_dots (l : List (List Char)) :
    ∀ acc, (∀ c ∈ l, c ≠ ['.', '.']) → resolveDots acc l = acc ++ l := by
  induction l with
  | nil => intro acc _; simp [resolveDots_nil]
  | cons x xs ih =>
    intro acc h
    rw [resolveDots_cons]
    rw [if_neg (h x (List.mem_cons_self x xs))]
    rw [ih _ (fun c hc => h c (List.mem_cons_of_mem x hc))]
    simp

theorem map_lower_eq_dots (x : List Char) :
    x.map lowerChar = ['.', '.'] ↔ x = ['.', '.'] := by
  rcases x with _ | ⟨a, _ | ⟨b, _ | ⟨d, t⟩⟩⟩ <;> simp [lowerChar_eq_dot]

theorem map_lower_eq_dot (x : List Char) :
    x.map lowerChar = ['.'] ↔ x = ['.'] := by
  rcases x with _ | ⟨a, _ | ⟨b, t⟩⟩ <;> simp [lowerChar_eq_dot]

theorem resolveDots_map_lower (l : List (List Char)) :
    ∀ acc, resolveDots (acc.map (List.map lowerChar)) (l.map (List.map lowerChar))
      = (resolveDots acc l).map (List.map lowerChar) := by
  induction l with
  | nil => intro acc; simp [resolveDots_nil]
  | cons x xs ih =>
    intro acc
    show resolveDots _ (x.map lowerChar :: xs.map (List.map lowerChar)) = _
    rw [resolveDots_cons, resolveDots_cons]
    by_cases hx : x = ['.', '.']
    · rw [if_pos ((map_lower_eq_dots x).mpr hx), if_pos hx]
      rw [← List.map_dropLast]
      exact ih acc.dropLast
    · rw [if_neg (fun hc => hx ((map_lower_eq_dots x).mp hc)), if_neg hx]
      rw [show (acc.map (List.map lowerChar)) ++ [x.map lowerChar]
            = (acc ++ [x]).map (List.map lowerChar) by simp]
      exact ih (acc ++ [x])

/-! ## Canonical-form lemmas for the path pipeline -/

theorem absComps_forall (p : List Char) :
    ∀ c ∈ absComps p,
      c ≠ [] ∧ c ≠ ['.'] ∧ c ≠ ['.', '.'] ∧ ∀ ch ∈ c, isSep ch = false := by
  intro c hc
  unfold absComps at hc
  refine resolveDots_forall
    (P := fun c => c ≠ [] ∧ c ≠ ['.'] ∧ c ≠ ['.', '.'] ∧ ∀ ch ∈ c, isSep ch = false)
    _ [] (by simp) ?_ c hc
  intro d hd hne
  have hmem := List.mem_filter.mp hd
  have hgood := hmem.2
  have hsep := splitComps_sepFree p d hmem.1
  unfold goodComp at hgood
  rw [Bool.and_eq_true] at hgood
  refine ⟨?_, of_decide_eq_true hgood.2, hne, hsep⟩
  intro h
  subst h
  simp at hgood

theorem joinComps_reverse_head (cs : List (List Char)) (hne : cs ≠ [])
    (hcs : ∀ l ∈ cs, l ≠ [] ∧ ∀ ch ∈ l, isSep ch = false) :
    ∃ d r, (joinComps cs).reverse = d :: r ∧ isSep d = false := by
  induction cs with
  | nil => cases hne rfl
  | cons c cs' ih =>
    rcases cs' with _ | ⟨c2, cs''⟩
    · rcases hrev : c.reverse with _ | ⟨d, r⟩
      · rw [List.reverse_eq_nil_iff] at hrev
        exact absurd hrev (hcs c (by simp)).1
      · refine ⟨d, r, by simpa [joinComps] using hrev, ?_⟩
        refine (hcs c (by simp)).2 d ?_
        have hmem : d ∈ c.reverse := hrev ▸ List.mem_cons_self d r
        simpa using hmem
    · obtain ⟨d, r, hdr, hd⟩ :=
        ih (by simp) (fun l hl => hcs l (List.mem_cons_of_mem c hl))
      refine ⟨d, r ++ '/' :: c.reverse, ?_, hd⟩
      show (joinComps (c :: c2 :: cs'')).reverse = _
      have hj : joinComps (c :: c2 :: cs'') = c ++ '/' :: joinComps (c2 :: cs'') :=
        rfl
      rw [hj, List.reverse_append, List.reverse_cons, hdr]
      simp

theorem removeTrailing_of_reverse_head {p : List Char} {d : Char} {r : List Char}
    (h : p.reverse = d :: r) (hd : isSep d = false) :
    removeTrailingSeparatorsL p = p := by
  unfold removeTrailingSeparatorsL
  rw [h]
  unfold dropTrailingSepsRev
  rw [if_neg (by rw [hd]; simp)]
  rw [← h, List.reverse_reverse]

theorem removeTrailing_resolveAbs (p : List Char) :
    removeTrailingSeparatorsL (resolveAbs p) = resolveAbs p := by
  unfold resolveAbs
  rcases hcs : absComps p with _ | ⟨c, cs'⟩
  · decide
  · have hforall := absComps_forall p
    obtain ⟨d, r, hdr, hd⟩ :=
      joinComps_reverse_head (c :: cs') (by simp)
        (fun l hl =>
          ⟨(hforall l (hcs ▸ hl)).1, (hforall l (hcs ▸ hl)).2.2.2⟩)
    refine removeTrailing_of_reverse_head (d := d) (r := r ++ ['/']) ?_ hd
    rw [List.reverse_cons, hdr]
    simp

theorem toComparable_idem (p : List Char) :
    toComparablePathL (toComparablePathL p) = toComparablePathL p := by
  unfold toComparablePathL
  rw [List.map_map]
  exact List.map_congr_left (fun c _ => comparableChar_idem c)

theorem map_comparable_join (cs : List (List Char)) :
    (joinComps cs).map comparableChar
      = joinComps (cs.map (List.map comparableChar)) := by
  induction cs with
  | nil => rfl
  | cons c cs' ih =>
    rcases cs' with _ | ⟨c2, cs''⟩
    · rfl
    · show (c ++ '/' :: joinComps (c2 :: cs'')).map comparableChar = _
      rw [List.map_append, List.map_cons, comparableChar_slash, ih]
      rfl

theorem toComparable_resolveAbs (p : List Char) :
    toComparablePathL (resolveAbs p)
      = '/' :: joinComps ((absComps p).map (List.map lowerChar)) := by
  unfold resolveAbs toComparablePathL
  rw [List.map_cons, comparableChar_slash, map_comparable_join]
  congr 2
  apply List.map_congr_left
  intro l hl
  apply List.map_congr_left
  intro ch hch
  exact comparableChar_eq_lowerChar ((absComps_forall p l hl).2.2.2 ch hch)

theorem canonicalize_abs (cwd p : List Char) (h : isAbsolutePath p = true) :
    canonicalizeL cwd p
      = '/' :: joinComps ((absComps p).map (List.map lowerChar)) := by
  unfold canonicalizeL normalizePathL resolveL
  rw [if_pos h, removeTrailing_resolveAbs]
  exact toComparable_resolveAbs p

theorem absComps_map_lower (p : List Char) :
    (absComps p).map (List.map lowerChar)
      = resolveDots []
          (((((splitComps p).filter (fun c => !c.isEmpty)).map
              (List.map lowerChar))).filter (fun c => c ≠ ['.'])) := by
  unfold absComps
  rw [show (resolveDots [] ((splitComps p).filter goodComp)).map (List.map lowerChar)
        = resolveDots (([] : List (List Char)).map (List.map lowerChar))
            (((splitComps p).filter goodComp).map (List.map lowerChar)) from
      (resolveDots_map_lower _ _).symm]
  congr 1
  rw [List.filter_map, List.filter_filter]
  congr 1
  apply List.filter_congr
  intro x _
  rw [Bool.eq_iff_iff]
  simp [goodComp, map_lower_eq_dot, and_comm]

theorem canonicalize_eq_of_sameDir {p q : List Char} (h : sameDirSpelling p q)
    (cwd : List Char) : canonicalizeL cwd p = canonicalizeL cwd q := by
  obtain ⟨hp, hq, heq⟩ := h
  rw [canonicalize_abs cwd p hp, canonicalize_abs cwd q hq,
    absComps_map_lower, absComps_map_lower, heq]

theorem resolveL_eq_resolveAbs (cwd p : List Char) :
    ∃ p0, resolveL cwd p = resolveAbs p0 := by
  unfold resolveL
  split
  · exact ⟨p, rfl⟩
  · exact ⟨cwd ++ '/' :: p, rfl⟩

theorem canonical_structured (cwd p : List Char) :
    ∃ cs, canonicalizeL cwd p = '/' :: joinComps cs ∧
      ∀ c ∈ cs, c ≠ [] ∧ c ≠ ['.'] ∧ c ≠ ['.', '.'] ∧
        (∀ ch ∈ c, isSep ch = false) ∧ ∀ ch ∈ c, lowerChar ch = ch := by
  obtain ⟨p0, hp0⟩ := resolveL_eq_resolveAbs cwd p
  refine ⟨(absComps p0).map (List.map lowerChar), ?_, ?_⟩
  · unfold canonicalizeL normalizePathL
    rw [hp0, removeTrailing_resolveAbs]
    exact toComparable_resolveAbs p0
  · intro c hc
    obtain ⟨l, hl, rfl⟩ := List.mem_map.mp hc
    have hprops := absComps_forall p0 l hl
    refine ⟨?_, ?_, ?_, ?_, ?_⟩
    · intro h
      exact hprops.1 (List.map_eq_nil_iff.mp h)
    · intro h
      exact hprops.2.1 ((map_lower_eq_dot l).mp h)
    · intro h
      exact hprops.2.2.1 ((map_lower_eq_dots l).mp h)
    · intro ch hch
      obtain ⟨ch0, hch0, rfl⟩ := List.mem_map.mp hch
      rw [isSep_lowerChar]
      exact hprops.2.2.2 ch0 hch0
    · intro ch hch
      obtain ⟨ch0, _, rfl⟩ := List.mem_map.mp hch
      exact lowerChar_idem ch0

theorem canonicalizeL_fix {x : List Char}
    (hx : ∃ cs, x = '/' :: joinComps cs ∧
      ∀ c ∈ cs, c ≠ [] ∧ c ≠ ['.'] ∧ c ≠ ['.', '.'] ∧
        (∀ ch ∈ c, isSep ch = false) ∧ ∀ ch ∈ c, lowerChar ch = ch)
    (cwd : List Char) : canonicalizeL cwd x = x := by
  obtain ⟨cs, rfl, hcs⟩ := hx
  rcases cs with _ | ⟨c, cs'⟩
  · show canonicalizeL cwd ['/'] = ['/']
    unfold canonicalizeL normalizePathL resolveL
    rw [if_pos (by decide)]
    decide
  · have habs : isAbsolutePath ('/' :: joinComps (c :: cs')) = true := rfl
    rw [canonicalize_abs cwd _ habs]
    have hsplit : splitComps ('/' :: joinComps (c :: cs'))
        = [] :: (c :: cs') := by
      rw [splitComps_slash_cons,
        splitComps_join (c :: cs') (by simp)
          (fun l hl => ⟨(hcs l hl).1, (hcs l hl).2.2.2.1⟩)]
    have habsc : absComps ('/' :: joinComps (c :: cs')) = c :: cs' := by
      unfold absComps
      rw [hsplit]
      rw [List.filter_cons_of_neg (by simp [goodComp])]
      rw [List.filter_eq_self.mpr (fun a ha => by
        unfold goodComp
        rw [Bool.and_eq_true]
        refine ⟨?_, decide_eq_true (hcs a ha).2.1⟩
        simp [(hcs a ha).1])]
      exact resolveDots_no_dots _ [] (fun a ha => (hcs a ha).2.2.1)
    rw [habsc]
    have hfix : ∀ l ∈ c :: cs', List.map lowerChar l = l := fun l hl =>
      (List.map_congr_left (fun ch hch => (hcs l hl).2.2.2.2 ch hch)).trans
        (List.map_id l)
    rw [show List.map (List.map lowerChar) (c :: cs') = c :: cs' from
      (List.map_congr_left (fun l hl => hfix l hl)).trans (List.map_id _)]

theorem canonicalizeL_idem (cwd p : List Char) :
    canonicalizeL cwd (canonicalizeL cwd p) = canonicalizeL cwd p :=
  canonicalizeL_fix (canonical_structured cwd p) cwd

theorem absComps_resolveAbs (p : List Char) :
    absComps (resolveAbs p) = absComps p := by
  unfold resolveAbs
  rcases hcs : absComps p with _ | ⟨c, cs'⟩
  · decide
  · have hforall := absComps_forall p
    have hmem : ∀ l ∈ c :: cs',
        l ≠ [] ∧ l ≠ ['.'] ∧ l ≠ ['.', '.'] ∧ ∀ ch ∈ l, isSep ch = false :=
      fun l hl => hforall l (hcs ▸ hl)
    show absComps ('/' :: joinComps (c :: cs')) = c :: cs'
    unfold absComps
    rw [splitComps_slash_cons,
      splitComps_join (c :: cs') (by simp)
        (fun l hl => ⟨(hmem l hl).1, (hmem l hl).2.2.2⟩)]
    rw [List.filter_cons_of_neg (by simp [goodComp])]
    rw [List.filter_eq_self.mpr (fun a ha => by
      unfold goodComp
      rw [Bool.and_eq_true]
      refine ⟨?_, decide_eq_true (hmem a ha).2.1⟩
      simp [(hmem a ha).1])]
    exact resolveDots_no_dots _ [] (fun a ha => (hmem a ha).2.2.1)

theorem canonicalizeL_normalizePathL (cwd b : List Char) :
    canonicalizeL cwd (normalizePathL cwd b) = canonicalizeL cwd b := by
  obtain ⟨p0, hp0⟩ := resolveL_eq_resolveAbs cwd b
  have h1 : normalizePathL cwd b = resolveAbs p0 := by
    unfold normalizePathL
    rw [hp0, removeTrailing_resolveAbs]
  rw [h1]
  have habs : isAbsolutePath (resolveAbs p0) = true := rfl
  rw [canonicalize_abs cwd _ habs, absComps_resolveAbs]
  show _ = canonicalizeL cwd b
  unfold canonicalizeL normalizePathL
  rw [hp0, removeTrailing_resolveAbs, toComparable_resolveAbs]

theorem pathsEqual_normalize (cwd a b : String) :
    pathsEqual cwd a (normalizePath cwd b) = pathsEqual cwd a b := by
  show (canonicalizeL cwd.data a.data
      == canonicalizeL cwd.data (normalizePathL cwd.data b.data))
    = (canonicalizeL cwd.data a.data == canonicalizeL cwd.data b.data)
  rw [canonicalizeL_normalizePathL]

/-! ## Claim theorems: PathCanonicalizer -/

/-- C3: for every pair of path spellings denoting the same directory that
differ only in letter case, trailing separators, or separator style,
`pathsEqual` holds. -/
theorem claim_C3_pathsEqual_equivalent_spellings (cwd p q : String)
    (h : sameDirSpelling p.data q.data) : pathsEqual cwd p q = true := by
  show (canonicalizeL cwd.data p.data == canonicalizeL cwd.data q.data) = true
  rw [canonicalize_eq_of_sameDir h]
  exact beq_self_eq_true _

theorem claim_C3_witness :
    sameDirSpelling "/Users/Foo/Proj/".data "\\users\\foo\\PROJ".data ∧
      pathsEqual "/" "/Users/Foo/Proj/" "\\users\\foo\\PROJ" = true :=
  ⟨by unfold sameDirSpelling; refine ⟨by decide, by decide, by decide⟩,
    claim_C3_pathsEqual_equivalent_spellings "/" "/Users/Foo/Proj/"
      "\\users\\foo\\PROJ"
      (by unfold sameDirSpelling; refine ⟨by decide, by decide, by decide⟩)⟩

/-- C4: canonicalization (`normalizePath` followed by `toComparablePath`)
is idempotent: `canonicalize (canonicalize p) = canonicalize p` (it is a
pure function of the spelling and the working directory, hence
deterministic). -/
theorem claim_C4_canonicalize_idempotent (cwd p : String) :
    canonicalize cwd (canonicalize cwd p) = canonicalize cwd p :=
  congrArg String.mk (canonicalizeL_idem cwd.data p.data)

/-! ## Claim theorems: Orchestrator -/

/-- C1: with a running instance bound to a path canonically equal to the
resolved project path, a non-restart Launch pass focuses that instance's
pid and performs zero launch invocations. -/
theorem claim_C1_running_instance_focused (cwd resolvedProjectPath : String)
    (env : OrchestratorEnv)
    (h : ∃ c ∈ env.processes,
      pathsEqual cwd c.projectPath resolvedProjectPath = true) :
    ∃ c, findRunningUnityProcess cwd env.processes resolvedProjectPath = some c ∧
      pathsEqual cwd c.projectPath resolvedProjectPath = true ∧
      (mainAfterResolve cwd env false resolvedProjectPath).1
        = MainResult.focused c.pid ∧
      (mainAfterResolve cwd env false resolvedProjectPath).2.launchInvocations
        = 0 ∧
      (mainAfterResolve cwd env false resolvedProjectPath).2.focusedPids
        = [c.pid] := by
  have hx : (env.processes.find? (fun c =>
      pathsEqual cwd c.projectPath (normalizePath cwd resolvedProjectPath))).isSome := by
    rw [List.find?_isSome]
    obtain ⟨c, hc, hpe⟩ := h
    refine ⟨c, hc, ?_⟩
    rw [pathsEqual_normalize]
    exact hpe
  obtain ⟨c, hc⟩ := Option.isSome_iff_exists.mp hx
  have hfind : findRunningUnityProcess cwd env.processes resolvedProjectPath
      = some c := hc
  refine ⟨c, hfind, ?_, ?_, ?_, ?_⟩
  · have := List.find?_some hc
    rwa [pathsEqual_normalize] at this
  · simp [mainAfterResolve, hfind]
  · simp [mainAfterResolve, hfind, addFocused, emptyEffects]
  · simp [mainAfterResolve, hfind, addFocused, emptyEffects]

theorem claim_C1_witness :
    (mainAfterResolve "/" runEnv false "/Users/Foo/Proj/").1
        = MainResult.focused 42 ∧
      (mainAfterResolve "/" runEnv false "/Users/Foo/Proj/").2.launchInvocations
        = 0 := by
  obtain ⟨c, hfind, hpe, hres, hlaunch, hfocus⟩ :=
    claim_C1_running_instance_focused "/" "/Users/Foo/Proj/" runEnv
      ⟨⟨42, "/users/foo/proj"⟩, by decide, by decide⟩
  have hc : c = ⟨42, "/users/foo/proj"⟩ := by
    have : findRunningUnityProcess "/" runEnv.processes "/Users/Foo/Proj/"
        = some ⟨42, "/users/foo/proj"⟩ := by decide
    rw [this] at hfind
    exact (Option.some_inj.mp hfind).symm
  subst hc
  exact ⟨hres, hlaunch⟩

/-- C2 counterexample: with no matching running instance and a lock marker
that a live process holds open (the spec's Held state), the code does not
refuse with a LockHeldError — it deletes the Temp directory and the marker
and performs one launch invocation. -/
theorem claim_C2_counterexample :
    (mainAfterResolve "/" heldEnv false "/p").1 = MainResult.launched ∧
      (mainAfterResolve "/" heldEnv false "/p").2.launchInvocations = 1 ∧
      (mainAfterResolve "/" heldEnv false "/p").2.tempDirDeletions = 1 ∧
      (mainAfterResolve "/" heldEnv false "/p").2.lockfileDeletions = 1 ∧
      heldEnv.lockHolderAlive = true := by
  decide

/-- C2 amended: the launch decision never probes whether the lock marker is
held open; with no matching running instance and an existing lock marker —
held by a live process or not — the pass deletes the Temp directory and the
marker and performs exactly one launch invocation. -/
theorem claim_C2_amended_no_held_probe (cwd resolvedProjectPath : String)
    (env : OrchestratorEnv)
    (hnone : findRunningUnityProcess cwd env.processes resolvedProjectPath
      = none)
    (hlock : env.lockfileExists = true) :
    (mainAfterResolve cwd env false resolvedProjectPath).1
        = MainResult.launched ∧
      (mainAfterResolve cwd env false resolvedProjectPath).2.launchInvocations
        = 1 ∧
      (mainAfterResolve cwd env false resolvedProjectPath).2.tempDirDeletions
        = 1 ∧
      (mainAfterResolve cwd env false resolvedProjectPath).2.lockfileDeletions
        = 1 := by
  simp [mainAfterResolve, hnone, handleStaleLockfile, hlock,
    addTempAndLockfileDeletion, addLaunch, addRegistryUpdate, emptyEffects]

theorem claim_C2_amended_witness :
    (mainAfterResolve "/" heldEnv false "/p").1 = MainResult.launched ∧
      (mainAfterResolve "/" heldEnv false "/p").2.launchInvocations = 1 ∧
      (mainAfterResolve "/" heldEnv false "/p").2.tempDirDeletions = 1 ∧
      (mainAfterResolve "/" heldEnv false "/p").2.lockfileDeletions = 1 :=
  claim_C2_amended_no_held_probe "/" "/p" heldEnv (by decide) (by decide)

/-- C5: with a Stale lock (marker present, no live holder) and no matching
running instance, the pass deletes the Temp directory and the marker and
invokes the Launch collaborator exactly once. -/
theorem claim_C5_stale_lock_cleanup_single_launch (cwd resolvedProjectPath : String)
    (env : OrchestratorEnv)
    (hnone : findRunningUnityProcess cwd env.processes resolvedProjectPath
      = none)
    (hlock : env.lockfileExists = true)
    (_hstale : env.lockHolderAlive = false) :
    (mainAfterResolve cwd env false resolvedProjectPath).1
        = MainResult.launched ∧
      (mainAfterResolve cwd env false resolvedProjectPath).2.tempDirDeletions
        = 1 ∧
      (mainAfterResolve cwd env false resolvedProjectPath).2.lockfileDeletions
        = 1 ∧
      (mainAfterResolve cwd env false resolvedProjectPath).2.launchInvocations
        = 1 := by
  simp [mainAfterResolve, hnone, handleStaleLockfile, hlock,
    addTempAndLockfileDeletion, addLaunch, addRegistryUpdate, emptyEffects]

theorem claim_C5_witness :
    (mainAfterResolve "/" staleEnv false "/p").1 = MainResult.launched ∧
      (mainAfterResolve "/" staleEnv false "/p").2.tempDirDeletions = 1 ∧
      (mainAfterResolve "/" staleEnv false "/p").2.lockfileDeletions = 1 ∧
      (mainAfterResolve "/" staleEnv false "/p").2.launchInvocations = 1 :=
  claim_C5_stale_lock_cleanup_single_launch "/" "/p" staleEnv (by decide)
    (by decide) (by decide)

/-! ## Claim theorems: ProcessRegistry -/

/-- C8: a failed platform process-listing query (rejected promise: tool not
found, permission denied, non-zero exit) degrades to an empty instance list
on both platforms and never propagates. -/
theorem claim_C8_query_failure_degrades_to_empty (cwd err : String) :
    listUnityProcessesMac cwd (Except.error err) = [] ∧
      listUnityProcessesWindows cwd (Except.error err) = [] :=
  ⟨rfl, rfl⟩

set_option maxRecDepth 40000 in
/-- C9: a command line carrying an auxiliary marker is excluded from the
process list even when it matches the executable pattern and carries a
parseable quoted `-projectPath` value; in particular the spec's scenario
line produces no instance. -/
theorem claim_C9_auxiliary_process_excluded :
    (∀ (cwd : String) (line : List Char) (pid : Nat) (command : List Char),
      parsePsLine line = some (pid, command) →
      isUnityAuxiliaryProcess ⟨command⟩ = true →
      processMacLine cwd line = none) ∧
      testUnityExecutablePatternMac auxCommandLine = true ∧
      extractProjectPath auxCommandLine = some "/Users/a b/Proj" ∧
      isUnityAuxiliaryProcess auxCommandLine = true ∧
      listUnityProcessesMac "/" (Except.ok auxPsStdout) = [] := by
  refine ⟨?_, by decide, by decide, by decide, by decide⟩
  intro cwd line pid command hparse haux
  unfold processMacLine
  rw [hparse]
  rcases htest : testUnityExecutablePatternMac ⟨command⟩ with _ | _
  · simp [htest]
  · simp [htest, haux]

set_option maxRecDepth 40000 in
theorem claim_C9_witness : processMacLine "/" auxPsLine = none :=
  claim_C9_auxiliary_process_excluded.1 "/" auxPsLine 12345 auxCommandLine.data
    (by decide) (by decide)

/-! ## ProjectLocator lemmas -/

theorem bfsAux_cons (n : Nat) (e : BfsEntry) (rest : List BfsEntry)
    (v : List (List String)) (k : Int) :
    bfsAux (n + 1) (e :: rest) v k =
      if e.tree.isProject then some e
      else if canDescend k e.depth then
        let qv := enqueueChildren e.path e.depth
          (listSubdirectoriesSorted e.tree.children) rest v
        bfsAux n qv.1 qv.2 k
      else bfsAux n rest v k := rfl

theorem bfsTraceAux_cons (n : Nat) (e : BfsEntry) (rest : List BfsEntry)
    (v : List (List String)) (k : Int) :
    bfsTraceAux (n + 1) (e :: rest) v k =
      if canDescend k e.depth then
        let qv := enqueueChildren e.path e.depth
          (listSubdirectoriesSorted e.tree.children) rest v
        e :: bfsTraceAux n qv.1 qv.2 k
      else e :: bfsTraceAux n rest v k := rfl

theorem bfsAux_eq_find_trace :
    ∀ (fuel : Nat) (q : List BfsEntry) (v : List (List String)) (k : Int),
      bfsAux fuel q v k
        = (bfsTraceAux fuel q v k).find? (fun e => e.tree.isProject) := by
  intro fuel
  induction fuel with
  | zero => intro q v k; rfl
  | succ n ih =>
    intro q v k
    rcases q with _ | ⟨e, rest⟩
    · rfl
    · rw [bfsAux_cons, bfsTraceAux_cons]
      by_cases hp : e.tree.isProject = true
      · by_cases hcd : canDescend k e.depth = true <;>
          simp [hp, hcd, List.find?]
      · by_cases hcd : canDescend k e.depth = true <;>
          simp [hp, hcd, List.find?, ih]

theorem enqueueChildren_cons (p : List String) (d : Nat) (c : DirTree)
    (cs' : List DirTree) (q : List BfsEntry) (v : List (List String)) :
    enqueueChildren p d (c :: cs') q v =
      if v.contains (entryKey (p ++ [c.name])) then
        enqueueChildren p d cs' q v
      else enqueueChildren p d cs'
        (q ++ [⟨p ++ [c.name], d + 1, c⟩])
        (v ++ [entryKey (p ++ [c.name])]) := rfl

theorem enqueueChildren_spec (p : List String) (d : Nat) :
    ∀ (cs : List DirTree) (q : List BfsEntry) (v : List (List String)),
      ∃ ne nk, enqueueChildren p d cs q v = (q ++ ne, v ++ nk) ∧
        ∀ x ∈ ne, x.depth = d + 1 ∧
          ∃ c ∈ cs, x.path = p ++ [c.name] ∧ x.tree = c := by
  intro cs
  induction cs with
  | nil =>
    intro q v
    exact ⟨[], [], by simp [enqueueChildren], by simp⟩
  | cons c cs' ih =>
    intro q v
    rw [enqueueChildren_cons]
    by_cases hc : v.contains (entryKey (p ++ [c.name])) = true
    · rw [if_pos hc]
      obtain ⟨ne, nk, heq, hprops⟩ := ih q v
      refine ⟨ne, nk, heq, fun x hx => ⟨(hprops x hx).1, ?_⟩⟩
      obtain ⟨cc, hcc, hrest⟩ := (hprops x hx).2
      exact ⟨cc, List.mem_cons_of_mem c hcc, hrest⟩
    · rw [if_neg hc]
      obtain ⟨ne, nk, heq, hprops⟩ :=
        ih (q ++ [⟨p ++ [c.name], d + 1, c⟩]) (v ++ [entryKey (p ++ [c.name])])
      refine ⟨⟨p ++ [c.name], d + 1, c⟩ :: ne,
        entryKey (p ++ [c.name]) :: nk, ?_, ?_⟩
      · rw [heq]
        simp
      · intro x hx
        rcases List.mem_cons.mp hx with hx1 | hx2
        · subst hx1
          exact ⟨rfl, c, List.mem_cons_self c cs', rfl, rfl⟩
        · refine ⟨(hprops x hx2).1, ?_⟩
          obtain ⟨cc, hcc, hrest⟩ := (hprops x hx2).2
          exact ⟨cc, List.mem_cons_of_mem c hcc, hrest⟩

theorem qDepthInv_tail {e : BfsEntry} {rest : List BfsEntry}
    (h : QDepthInv (e :: rest)) : QDepthInv rest :=
  ⟨(List.pairwise_cons.mp h.1).2,
    fun a ha b hb =>
      h.2 a (List.mem_cons_of_mem e ha) b (List.mem_cons_of_mem e hb)⟩

theorem qDepthInv_step {e : BfsEntry} {rest ne : List BfsEntry}
    (hinv : QDepthInv (e :: rest))
    (hne : ∀ x ∈ ne, x.depth = e.depth + 1) :
    QDepthInv (rest ++ ne) := by
  obtain ⟨hpw, hbd⟩ := hinv
  have hhead := (List.pairwise_cons.mp hpw).1
  have htail := (List.pairwise_cons.mp hpw).2
  constructor
  · rw [List.pairwise_append]
    refine ⟨htail, ?_, ?_⟩
    · refine List.pairwise_of_forall_mem_list ?_
      intro a ha b hb
      have h1 := hne a ha
      have h2 := hne b hb
      omega
    · intro a ha b hb
      have h1 := hbd e (List.mem_cons_self e rest) a (List.mem_cons_of_mem e ha)
      have h2 := hne b hb
      omega
  · intro a ha b hb
    rcases List.mem_append.mp ha with ha1 | ha2 <;>
      rcases List.mem_append.mp hb with hb1 | hb2
    · exact hbd a (List.mem_cons_of_mem e ha1) b (List.mem_cons_of_mem e hb1)
    · have h1 := hhead a ha1
      have h2 := hne b hb2
      omega
    · have h1 := hbd e (List.mem_cons_self e rest) b (List.mem_cons_of_mem e hb1)
      have h2 := hne a ha2
      omega
    · have h1 := hne a ha2
      have h2 := hne b hb2
      omega

theorem trace_mem_depth_lb :
    ∀ (fuel : Nat) (q : List BfsEntry) (v : List (List String)) (k : Int)
      (lb : Nat), (∀ a ∈ q, lb ≤ a.depth) →
      ∀ x ∈ bfsTraceAux fuel q v k, lb ≤ x.depth := by
  intro fuel
  induction fuel with
  | zero =>
    intro q v k lb _ x hx
    simp [bfsTraceAux] at hx
  | succ n ih =>
    intro q v k lb hlb x hx
    rcases q with _ | ⟨e, rest⟩
    · simp [bfsTraceAux] at hx
    · rw [bfsTraceAux_cons] at hx
      obtain ⟨ne, nk, heq, hprops⟩ :=
        enqueueChildren_spec e.path e.depth
          (listSubdirectoriesSorted e.tree.children) rest v
      by_cases hcd : canDescend k e.depth = true
      · rw [if_pos hcd] at hx
        simp only [heq] at hx
        rcases List.mem_cons.mp hx with hx1 | hx2
        · exact hx1 ▸ hlb e (List.mem_cons_self e rest)
        · refine ih _ _ k lb ?_ x hx2
          intro a ha
          rcases List.mem_append.mp ha with ha1 | ha2
          · exact hlb a (List.mem_cons_of_mem e ha1)
          · have h1 := (hprops a ha2).1
            have h2 := hlb e (List.mem_cons_self e rest)
            omega
      · rw [if_neg hcd] at hx
        rcases List.mem_cons.mp hx with hx1 | hx2
        · exact hx1 ▸ hlb e (List.mem_cons_self e rest)
        · exact ih rest v k lb
            (fun a ha => hlb a (List.mem_cons_of_mem e ha)) x hx2

theorem trace_pairwise_depth :
    ∀ (fuel : Nat) (q : List BfsEntry) (v : List (List String)) (k : Int),
      QDepthInv q →
      List.Pairwise (fun a b => a.depth ≤ b.depth) (bfsTraceAux fuel q v k) := by
  intro fuel
  induction fuel with
  | zero =>
    intro q v k _
    simp [bfsTraceAux]
  | succ n ih =>
    intro q v k hinv
    rcases q with _ | ⟨e, rest⟩
    · simp [bfsTraceAux]
    · rw [bfsTraceAux_cons]
      obtain ⟨ne, nk, heq, hprops⟩ :=
        enqueueChildren_spec e.path e.depth
          (listSubdirectoriesSorted e.tree.children) rest v
      by_cases hcd : canDescend k e.depth = true
      · rw [if_pos hcd]
        simp only [heq]
        rw [List.pairwise_cons]
        constructor
        · intro x hx
          refine trace_mem_depth_lb n _ _ k e.depth ?_ x hx
          intro a ha
          rcases List.mem_append.mp ha with ha1 | ha2
          · exact (List.pairwise_cons.mp hinv.1).1 a ha1
          · rw [(hprops a ha2).1]
            omega
        · exact ih _ _ k (qDepthInv_step hinv (fun x hx => (hprops x hx).1))
      · rw [if_neg hcd]
        rw [List.pairwise_cons]
        constructor
        · intro x hx
          exact trace_mem_depth_lb n rest v k e.depth
            (List.pairwise_cons.mp hinv.1).1 x hx
        · exact ih rest v k (qDepthInv_tail hinv)

theorem mem_insertByName {x a : DirTree} :
    ∀ {l : List DirTree}, x ∈ insertByName a l ↔ x = a ∨ x ∈ l := by
  intro l
  induction l with
  | nil => simp [insertByName]
  | cons b bs ih =>
    show x ∈ (if nameLe a.name b.name then a :: b :: bs else b :: insertByName a bs)
      ↔ _
    by_cases h : nameLe a.name b.name = true
    · rw [if_pos h]
      simp
    · rw [if_neg h]
      simp [ih]
      tauto

theorem mem_sortByName {x : DirTree} :
    ∀ {l : List DirTree}, x ∈ sortByName l ↔ x ∈ l := by
  intro l
  induction l with
  | nil => simp [sortByName]
  | cons a rest ih =>
    show x ∈ insertByName a (sortByName rest) ↔ _
    rw [mem_insertByName]
    simp [ih]

theorem mem_listSubdirectoriesSorted {x : DirTree} {cs : List DirTree}
    (h : x ∈ listSubdirectoriesSorted cs) :
    x ∈ cs ∧ EXCLUDED_DIR_NAMES.contains (lowerString x.name) = false := by
  unfold listSubdirectoriesSorted at h
  rw [mem_sortByName] at h
  have hm := List.mem_filter.mp h
  exact ⟨hm.1, by simpa using hm.2⟩

theorem trace_path_props :
    ∀ (fuel : Nat) (q : List BfsEntry) (v : List (List String)) (k : Int),
      (∀ e ∈ q,
        (∀ nm ∈ e.path, EXCLUDED_DIR_NAMES.contains (lowerString nm) = false) ∧
        (0 ≤ k → (e.depth : Int) ≤ k)) →
      ∀ x ∈ bfsTraceAux fuel q v k,
        (∀ nm ∈ x.path, EXCLUDED_DIR_NAMES.contains (lowerString nm) = false) ∧
        (0 ≤ k → (x.depth : Int) ≤ k) := by
  intro fuel
  induction fuel with
  | zero =>
    intro q v k _ x hx
    simp [bfsTraceAux] at hx
  | succ n ih =>
    intro q v k hq x hx
    rcases q with _ | ⟨e, rest⟩
    · simp [bfsTraceAux] at hx
    · rw [bfsTraceAux_cons] at hx
      obtain ⟨ne, nk, heq, hprops⟩ :=
        enqueueChildren_spec e.path e.depth
          (listSubdirectoriesSorted e.tree.children) rest v
      by_cases hcd : canDescend k e.depth = true
      · rw [if_pos hcd] at hx
        simp only [heq] at hx
        rcases List.mem_cons.mp hx with hx1 | hx2
        · exact hx1 ▸ hq e (List.mem_cons_self e rest)
        · refine ih _ _ k ?_ x hx2
          intro a ha
          rcases List.mem_append.mp ha with ha1 | ha2
          · exact hq a (List.mem_cons_of_mem e ha1)
          · obtain ⟨hdep, c, hcmem, hpath, htree⟩ := hprops a ha2
            obtain ⟨hcs, hname⟩ := mem_listSubdirectoriesSorted hcmem
            constructor
            · intro nm hnm
              rw [hpath] at hnm
              rcases List.mem_append.mp hnm with h1 | h1
              · exact (hq e (List.mem_cons_self e rest)).1 nm h1
              · rw [List.mem_singleton] at h1
                subst h1
                exact htree ▸ hname
            · intro hk
              rw [hdep]
              unfold canDescend at hcd
              rw [Bool.or_eq_true] at hcd
              rcases hcd with h1 | h1
              · rw [beq_iff_eq] at h1
                omega
              · rw [decide_eq_true_eq] at h1
                push_cast
                omega
      · rw [if_neg hcd] at hx
        rcases List.mem_cons.mp hx with hx1 | hx2
        · exact hx1 ▸ hq e (List.mem_cons_self e rest)
        · exact ih rest v k
            (fun a ha => hq a (List.mem_cons_of_mem e ha)) x hx2

/-! ## Claim theorems: ProjectLocator -/

theorem treeSiblings_size : treeSiblings.size = 4 := by
  simp [treeSiblings, DirTree.size, sizeChildren]

theorem treeCross_size : treeCross.size = 5 := by
  simp [treeCross, DirTree.size, sizeChildren]

theorem treeCaseCollision_size : treeCaseCollision.size = 3 := by
  simp [treeCaseCollision, DirTree.size, sizeChildren]

theorem treeTempRoot_size : treeTempRoot.size = 1 := by
  simp [treeTempRoot, DirTree.size, sizeChildren]

/-- C6 counterexample: the traversal sorts siblings per parent, it does not
order a whole depth level by name, and sibling names that collide after
case folding share one visited key.  With valid candidates `Alpha` (under
parent `B`) and `Beta` (under parent `A`) both at depth 2, `Beta` is
returned, not `Alpha`; and with a valid `PROJ` at depth 1 preceded by its
case-folded sibling `proj` (which sorts first under the locale-aware
ordering), nothing is returned at all even though a valid project is
reachable. -/
theorem claim_C6_counterexample :
    (findUnityProjectBfs treeCross 2).map (fun e => e.tree.name)
        = some "Beta" ∧
      "Beta" ≠ "Alpha" ∧
      (findUnityProjectBfs treeCaseCollision 3).map (fun e => e.path)
        = none ∧
      treeCaseCollision.children.any
        (fun c => c.name == "PROJ" && c.isProject) = true := by
  refine ⟨?_, by decide, ?_, by decide⟩
  · unfold findUnityProjectBfs
    rw [treeCross_size]
    decide
  · unfold findUnityProjectBfs
    rw [treeCaseCollision_size]
    decide

/-- C6 amended: `findUnityProjectBfs` returns the first valid directory in
its breadth-first visit order; that order is nondecreasing in depth, so the
returned directory is at least as shallow as every valid directory the
traversal visits, and siblings are visited sorted by name, so of two valid
sibling candidates `Alpha` and `Beta` at depth 2 under the same parent,
`Alpha` is returned. -/
theorem claim_C6_amended_bfs_order :
    (∀ (root : DirTree) (k : Int) (e : BfsEntry),
      findUnityProjectBfs root k = some e →
        e.tree.isProject = true ∧
        ∀ x ∈ bfsTrace root k, x.tree.isProject = true → e.depth ≤ x.depth) ∧
      (findUnityProjectBfs treeSiblings 2).map (fun e => e.path)
        = some ["P", "Alpha"] := by
  constructor
  · intro root k e h
    rw [findUnityProjectBfs, bfsAux_eq_find_trace] at h
    obtain ⟨hpe, l1, l2, htr, hpre⟩ := List.find?_eq_some.mp h
    refine ⟨hpe, ?_⟩
    intro x hx hxp
    have hpw : List.Pairwise (fun a b => a.depth ≤ b.depth)
        (bfsTraceAux root.size [⟨[], 0, root⟩] [entryKey []] k) := by
      refine trace_pairwise_depth _ _ _ _ ⟨List.pairwise_singleton _ _, ?_⟩
      intro a ha b hb
      rw [List.mem_singleton] at ha hb
      subst ha
      subst hb
      exact Nat.le_succ 0
    have hx2 : x ∈ bfsTraceAux root.size [⟨[], 0, root⟩] [entryKey []] k := hx
    rw [htr] at hx2 hpw
    rcases List.mem_append.mp hx2 with h1 | h2
    · have hfalse := hpre x h1
      rw [hxp] at hfalse
      simp at hfalse
    · rcases List.mem_cons.mp h2 with h3 | h4
      · rw [h3]
      · have hp2 := (List.pairwise_append.mp hpw).2.1
        exact (List.pairwise_cons.mp hp2).1 x h4
  · unfold findUnityProjectBfs
    rw [treeSiblings_size]
    decide

theorem claim_C6_witness :
    (DirTree.node "Alpha" true []).isProject = true := by
  have hfind : findUnityProjectBfs treeSiblings 2
      = some ⟨["P", "Alpha"], 2, DirTree.node "Alpha" true []⟩ := by
    unfold findUnityProjectBfs
    rw [treeSiblings_size]
    rfl
  exact (claim_C6_amended_bfs_order.1 treeSiblings 2
    ⟨["P", "Alpha"], 2, DirTree.node "Alpha" true []⟩ hfind).1

/-- C7 counterexample: the deny-list is applied only when enumerating
children, never to the search root itself: a root directory named `temp`
that is a valid project is returned even though `temp` is on the
deny-list. -/
theorem claim_C7_counterexample :
    (findUnityProjectBfs treeTempRoot 3).map (fun e => e.tree.name)
        = some "temp" ∧
      "temp" ∈ EXCLUDED_DIR_NAMES := by
  refine ⟨?_, by decide⟩
  unfold findUnityProjectBfs
  rw [treeTempRoot_size]
  decide

/-- C7 amended: below the search root, the traversal never visits (hence
never returns) a directory whose name is on the deny-list — every visited
entry's path components are clean — and with a non-negative `maxDepth` it
never visits or returns a directory more than `maxDepth` levels below the
root. -/
theorem claim_C7_amended_denylist_and_depth :
    (∀ (root : DirTree) (k : Int),
      ∀ x ∈ bfsTrace root k,
        (∀ nm ∈ x.path, EXCLUDED_DIR_NAMES.contains (lowerString nm) = false) ∧
        (0 ≤ k → (x.depth : Int) ≤ k)) ∧
      ∀ (root : DirTree) (k : Int) (e : BfsEntry),
        findUnityProjectBfs root k = some e →
          (∀ nm ∈ e.path, EXCLUDED_DIR_NAMES.contains (lowerString nm) = false) ∧
          (0 ≤ k → (e.depth : Int) ≤ k) := by
  have key : ∀ (root : DirTree) (k : Int),
      ∀ x ∈ bfsTrace root k,
        (∀ nm ∈ x.path, EXCLUDED_DIR_NAMES.contains (lowerString nm) = false) ∧
        (0 ≤ k → (x.depth : Int) ≤ k) := by
    intro root k
    refine trace_path_props root.size _ _ k ?_
    intro a ha
    rw [List.mem_singleton] at ha
    subst ha
    exact ⟨by simp, fun hk => by simpa using hk⟩
  refine ⟨key, ?_⟩
  intro root k e h
  rw [findUnityProjectBfs, bfsAux_eq_find_trace] at h
  exact key root k e (List.mem_of_find?_eq_some h)

theorem claim_C7_witness :
    EXCLUDED_DIR_NAMES.contains (lowerString "Alpha") = false ∧
      ((2 : Nat) : Int) ≤ 2 := by
  have hfind : findUnityProjectBfs treeSiblings 2
      = some ⟨["P", "Alpha"], 2, DirTree.node "Alpha" true []⟩ := by
    unfold findUnityProjectBfs
    rw [treeSiblings_size]
    rfl
  have h := claim_C7_amended_denylist_and_depth.2 treeSiblings 2
    ⟨["P", "Alpha"], 2, DirTree.node "Alpha" true []⟩ hfind
  exact ⟨h.1 "Alpha" (by decide), h.2 (by decide)⟩

/-! ## Claim theorems: Unity Hub registry -/

/-- C10 counterexample: `ensureProjectEntryAndUpdate` does not preserve a
matching entry's `title` field when it is null — it fills it with the
derived project title (likewise `containingFolderPath`); and with no
matching entry at all, an existing non-matching entry that happens to be
keyed by the canonical project path is overwritten wholesale rather than
preserved. -/
theorem claim_C10_counterexample :
    ensureProjectEntryAndUpdate "/" [("k", entryNullTitle)] "/a/proj"
        "/a/proj" "proj" "/a" "2022.3.5f1" 99 false
      = [("k", ⟨some "proj", "/a/proj", some "/a", some "2020.1.1f1",
          some 99, some false⟩)] ∧
      entryNullTitle.title = none ∧
      (some "proj" : Option String) ≠ entryNullTitle.title ∧
      entryMatches "/" "/a/proj" entryOtherPath = false ∧
      ensureProjectEntryAndUpdate "/" [("/a/proj", entryOtherPath)] "/a/proj"
        "/a/proj" "proj" "/a" "2022.3.5f1" 99 false
      = [("/a/proj", ⟨some "proj", "/a/proj", some "/a", some "2022.3.5f1",
          some 99, some false⟩)] ∧
      ("/a/proj", entryOtherPath)
        ∉ ensureProjectEntryAndUpdate "/" [("/a/proj", entryOtherPath)]
            "/a/proj" "/a/proj" "proj" "/a" "2022.3.5f1" 99 false := by
  refine ⟨by decide, by decide, by decide, by decide, by decide, by decide⟩

/-- C10 amended: `updateLastModifiedIfExists` performs no write when no
entry's path matches, and otherwise patches exactly the entries keyed like
the first match, changing only `lastModified`; `ensureProjectEntryAndUpdate`
preserves every entry keyed differently from the target key, for the
matched entry (keys assumed unique, as in a JSON object) preserves `path`
unconditionally, preserves `title`, `version` and `containingFolderPath`
when present, fills them from the current launch when null, stamps
`lastModified`, and materializes `isFavorite` (true when requested,
otherwise the old value defaulted to false); when no entry's path matches
it appends a fresh entry keyed by the canonical project path, leaving
every existing entry unchanged — except that an existing entry already
using that key is overwritten with the fresh entry. -/
theorem claim_C10_amended_registry_frame :
    (∀ (cwd : String) (data : List (String × UnityHubProjectEntry))
      (P : String) (now : Int),
      data.find? (fun kv => entryMatches cwd P kv.2) = none →
      updateLastModifiedIfExists cwd data P now = none) ∧
    (∀ (cwd : String) (data : List (String × UnityHubProjectEntry))
      (P : String) (now : Int) (mk : String × UnityHubProjectEntry),
      data.find? (fun kv => entryMatches cwd P kv.2) = some mk →
      ∃ data', updateLastModifiedIfExists cwd data P now = some data' ∧
        List.Forall₂ (fun kv kv' =>
          (kv.1 ≠ mk.1 → kv' = kv) ∧
          (kv.1 = mk.1 → kv' = (kv.1, setEntryLastModified kv.2 now)))
          data data') ∧
    (∀ (e : UnityHubProjectEntry) (now : Int),
      (setEntryLastModified e now).title = e.title ∧
      (setEntryLastModified e now).path = e.path ∧
      (setEntryLastModified e now).containingFolderPath
        = e.containingFolderPath ∧
      (setEntryLastModified e now).version = e.version ∧
      (setEntryLastModified e now).isFavorite = e.isFavorite ∧
      (setEntryLastModified e now).lastModified = some now) ∧
    (∀ (cwd : String) (data : List (String × UnityHubProjectEntry))
      (P cp pt cf vv : String) (now : Int) (fav : Bool)
      (mk : String × UnityHubProjectEntry),
      data.find? (fun kv => entryMatches cwd P kv.2) = some mk →
      (data.map Prod.fst).Nodup →
      List.Forall₂ (fun kv kv' =>
        (kv.1 ≠ mk.1 → kv' = kv) ∧
        (kv.1 = mk.1 →
          kv'.1 = kv.1 ∧
          kv'.2.path = kv.2.path ∧
          (∀ t, kv.2.title = some t → kv'.2.title = some t) ∧
          (kv.2.title = none → kv'.2.title = some pt) ∧
          (∀ v0, kv.2.version = some v0 → kv'.2.version = some v0) ∧
          (kv.2.version = none → kv'.2.version = some vv) ∧
          (∀ c0, kv.2.containingFolderPath = some c0 →
            kv'.2.containingFolderPath = some c0) ∧
          (kv.2.containingFolderPath = none →
            kv'.2.containingFolderPath = some cf) ∧
          kv'.2.lastModified = some now ∧
          (fav = true → kv'.2.isFavorite = some true) ∧
          (fav = false →
            kv'.2.isFavorite = some (kv.2.isFavorite.getD false))))
        data (ensureProjectEntryAndUpdate cwd data P cp pt cf vv now fav)) ∧
    (∀ (cwd : String) (data : List (String × UnityHubProjectEntry))
      (P cp pt cf vv : String) (now : Int) (fav : Bool),
      data.find? (fun kv => entryMatches cwd P kv.2) = none →
      data.any (fun kv => kv.1 == cp) = false →
      ensureProjectEntryAndUpdate cwd data P cp pt cf vv now fav
        = data ++ [(cp, ⟨some pt, cp, some cf, some vv, some now,
            some (if fav = true then true else false)⟩)]) ∧
    (∀ (cwd : String) (data : List (String × UnityHubProjectEntry))
      (P cp pt cf vv : String) (now : Int) (fav : Bool),
      data.find? (fun kv => entryMatches cwd P kv.2) = none →
      data.any (fun kv => kv.1 == cp) = true →
      List.Forall₂ (fun kv kv' =>
        (kv.1 ≠ cp → kv' = kv) ∧
        (kv.1 = cp → kv' = (cp, ⟨some pt, cp, some cf, some vv, some now,
            some (if fav = true then true else false)⟩)))
        data (ensureProjectEntryAndUpdate cwd data P cp pt cf vv now fav)) := by
  refine ⟨?_, ?_, ?_, ?_, ?_, ?_⟩
  · intro cwd data P now hfind
    unfold updateLastModifiedIfExists
    rw [hfind]
  · intro cwd data P now mk hfind
    refine ⟨_, by unfold updateLastModifiedIfExists; rw [hfind], ?_⟩
    rw [List.forall₂_map_right_iff, List.forall₂_same]
    intro kv _
    by_cases h : kv.1 = mk.1
    · rw [if_pos (beq_iff_eq.mpr h)]
      exact ⟨fun hne => absurd h hne, fun _ => rfl⟩
    · rw [if_neg (by rw [beq_iff_eq]; exact h)]
      exact ⟨fun _ => rfl, fun he => absurd he h⟩
  · intro e now
    exact ⟨rfl, rfl, rfl, rfl, rfl, rfl⟩
  · intro cwd data P cp pt cf vv now fav mk hfind hnodup
    have hmkmem := List.mem_of_find?_eq_some hfind
    unfold ensureProjectEntryAndUpdate
    rw [hfind]
    have hany : data.any (fun kv => kv.1 == mk.1) = true :=
      List.any_eq_true.mpr ⟨mk, hmkmem, beq_self_eq_true _⟩
    simp only [hany, if_true]
    rw [List.forall₂_map_right_iff, List.forall₂_same]
    intro kv hkv
    by_cases h : kv.1 = mk.1
    · have hkvmk : kv = mk :=
        List.inj_on_of_nodup_map hnodup hkv hmkmem h
      rw [if_pos (beq_iff_eq.mpr h)]
      subst hkvmk
      refine ⟨fun hne => absurd rfl hne, fun _ => ⟨rfl, rfl, ?_, ?_, ?_, ?_,
        ?_, ?_, rfl, ?_, ?_⟩⟩
      · intro t ht
        show ((some kv.2).bind (fun e => e.title)).getD pt = some t
        rw [Option.some_bind, ht]
        rfl
      · intro ht
        show ((some kv.2).bind (fun e => e.title)).getD pt = some pt
        rw [Option.some_bind, ht]
        rfl
      · intro v0 hv
        show ((some kv.2).bind (fun e => e.version)).getD vv = some v0
        rw [Option.some_bind, hv]
        rfl
      · intro hv
        show ((some kv.2).bind (fun e => e.version)).getD vv = some vv
        rw [Option.some_bind, hv]
        rfl
      · intro c0 hc
        show ((some kv.2).bind (fun e => e.containingFolderPath)).getD cf
          = some c0
        rw [Option.some_bind, hc]
        rfl
      · intro hc
        show ((some kv.2).bind (fun e => e.containingFolderPath)).getD cf
          = some cf
        rw [Option.some_bind, hc]
        rfl
      · intro hf
        subst hf
        rfl
      · intro hf
        subst hf
        rfl
    · rw [if_neg (by rw [beq_iff_eq]; exact h)]
      exact ⟨fun _ => rfl, fun he => absurd he h⟩
  · intro cwd data P cp pt cf vv now fav hfind hany
    unfold ensureProjectEntryAndUpdate
    rw [hfind]
    simp [hany]
  · intro cwd data P cp pt cf vv now fav hfind hany
    have hres : ensureProjectEntryAndUpdate cwd data P cp pt cf vv now fav
        = data.map (fun kv => if kv.1 == cp then
            (cp, (⟨some pt, cp, some cf, some vv, some now,
              some (if fav = true then true else false)⟩ :
                UnityHubProjectEntry))
          else kv) := by
      unfold ensureProjectEntryAndUpdate
      rw [hfind]
      simp [hany]
    rw [hres, List.forall₂_map_right_iff, List.forall₂_same]
    intro kv _
    by_cases h : kv.1 = cp
    · rw [if_pos (beq_iff_eq.mpr h)]
      exact ⟨fun hne => absurd h hne, fun _ => rfl⟩
    · rw [if_neg (by rw [beq_iff_eq]; exact h)]
      exact ⟨fun _ => rfl, fun he => absurd he h⟩

theorem claim_C10_witness :
    ∃ data', updateLastModifiedIfExists "/" [("k", entryNullTitle)]
      "/a/proj" 99 = some data' := by
  obtain ⟨data', hsome, _⟩ :=
    claim_C10_amended_registry_frame.2.1 "/" [("k", entryNullTitle)]
      "/a/proj" 99 ("k", entryNullTitle) (by decide)
  exact ⟨data', hsome⟩

end LaunchUnity
